import Mathlib

/-!
Verification of the `CameraRig` component of `src/components/Scene.jsx`.

The rig keeps a mouse state (normalized pointer coordinates), a target
camera position, an immutable rotation baseline captured at mount, and
the camera transform (position and rotation).  Pointer-move and wheel
events mutate only the staged state; a per-frame update writes the
camera transform.  All arithmetic is modelled exactly over ℚ
(0.1 = 1/10, 0.02 = 1/50, 0.035 = 7/200, 0.025 = 1/40).
-/

namespace CameraRig

/-- A 3D vector with exact rational components (models `THREE.Vector3`). -/
structure Vec3 where
  x : ℚ
  y : ℚ
  z : ℚ
deriving DecidableEq, Repr

/-- A 2D vector with exact rational components (the `mouse` state). -/
structure Vec2 where
  x : ℚ
  y : ℚ
deriving DecidableEq, Repr

/-- `THREE.Vector3.lerp this v alpha`: each component moves by
`(v - this) * alpha`. -/
def lerp (v target : Vec3) (alpha : ℚ) : Vec3 :=
  ⟨v.x + (target.x - v.x) * alpha,
   v.y + (target.y - v.y) * alpha,
   v.z + (target.z - v.z) * alpha⟩

/-- `originalPosition.current = new THREE.Vector3(7, 0.75, 1)`. -/
def originalPosition : Vec3 := ⟨7, 3/4, 1⟩

/-- The mutable state of the `CameraRig` component together with the
camera transform it drives. -/
structure RigState where
  /-- `mouse` React state: latest normalized pointer coordinates. -/
  mouse : Vec2
  /-- `targetCameraPos.current`: where the camera eases toward. -/
  targetCameraPos : Vec3
  /-- `initialRotation.current`: the baseline captured once at mount. -/
  initialRotation : Vec3
  /-- `camera.position`. -/
  position : Vec3
  /-- `camera.rotation` (Euler angles x, y, z). -/
  rotation : Vec3
deriving DecidableEq, Repr

/-- `handlePointerMove`: replaces `mouse` with
`((clientX / size.width) * 2 - 1, (clientY / size.height) * 2 - 1)`. -/
def handlePointerMove (clientX clientY width height : ℚ) (s : RigState) :
    RigState :=
  { s with mouse := ⟨clientX / width * 2 - 1, clientY / height * 2 - 1⟩ }

/-- `handleWheel`: positive `deltaY` adds 0.1 to the target's y;
negative `deltaY` resets the target to `originalPosition`; zero falls
through both branches. -/
def handleWheel (deltaY : ℚ) (s : RigState) : RigState :=
  if deltaY > 0 then
    { s with targetCameraPos :=
        { s.targetCameraPos with y := s.targetCameraPos.y + 1/10 } }
  else if deltaY < 0 then
    { s with targetCameraPos := originalPosition }
  else
    s

/-- The `useFrame` callback: sets `camera.rotation.y` and
`camera.rotation.x` from the baseline and the mouse, then lerps
`camera.position` toward `targetCameraPos.current` with factor 0.02. -/
def frame (s : RigState) : RigState :=
  { s with
    rotation := ⟨s.initialRotation.x - s.mouse.y * (1/40),
                 s.initialRotation.y - s.mouse.x * (7/200),
                 s.rotation.z⟩,
    position := lerp s.position s.targetCameraPos (1/50) }

/-- The three kinds of occurrence the rig reacts to. -/
inductive Event where
  | pointerMove (clientX clientY width height : ℚ)
  | wheel (deltaY : ℚ)
  | tick
deriving Repr

/-- Dispatch one event to the corresponding handler. -/
def step (e : Event) (s : RigState) : RigState :=
  match e with
  | .pointerMove cX cY w h => handlePointerMove cX cY w h s
  | .wheel d => handleWheel d s
  | .tick => frame s

/-- Run a sequence of events from a state. -/
def run (events : List Event) (s : RigState) : RigState :=
  events.foldl (fun st e => step e st) s

/-- The state at mount: `mouse = (0, 0)` (the `useState` initializer),
the baseline and target cloned from the camera's configured transform.
The `<Canvas>` configures `camera.position = (7, 0.75, 1)`. -/
def initState (camPos camRot : Vec3) : RigState :=
  ⟨⟨0, 0⟩, camPos, camRot, camPos, camRot⟩

/-- Squared Euclidean distance between two points. -/
def distSq (a b : Vec3) : ℚ :=
  (a.x - b.x) ^ 2 + (a.y - b.y) ^ 2 + (a.z - b.z) ^ 2

/-- The sequence of per-frame positions with a fixed target:
`lerpIter cur target n` is the position after `n` frames. -/
def lerpIter (cur target : Vec3) : ℕ → Vec3
  | 0 => cur
  | n + 1 => lerp (lerpIter cur target n) target (1/50)

/-- A concrete mounted state used to instantiate universally quantified
theorems: the camera as configured by the `<Canvas>`. -/
def s₀ : RigState := initState originalPosition ⟨0, 0, 0⟩

/-- Folding `handleWheel` over a list of wheel deltas. -/
def wheelRun (deltas : List ℚ) (s : RigState) : RigState :=
  deltas.foldl (fun st d => handleWheel d st) s

theorem wheelRun_pos_y (deltas : List ℚ) (hpos : ∀ d ∈ deltas, 0 < d)
    (s : RigState) :
    (wheelRun deltas s).targetCameraPos.y =
      s.targetCameraPos.y + deltas.length / 10 := by
  induction deltas generalizing s with
  | nil => simp [wheelRun]
  | cons d ds ih =>
    have hd : 0 < d := hpos d (List.mem_cons_self d ds)
    have hstep : wheelRun (d :: ds) s = wheelRun ds (handleWheel d s) := rfl
    rw [hstep, ih (fun x hx => hpos x (List.mem_cons_of_mem d hx))]
    simp only [handleWheel, if_pos hd, List.length_cons]
    push_cast
    ring

/-- C2: a wheel event with positive `deltaY` adds exactly 0.1 to
`targetPos.y`, leaves x and z unchanged; `N` such events add `0.1·N`
with no bound; three downward scrolls from target `(7, 0.75, 1)` give
target `(7, 1.05, 1)`. -/
theorem wheel_down_increments_target_y (s : RigState) (d : ℚ)
    (hd : 0 < d) :
    (handleWheel d s).targetCameraPos.y = s.targetCameraPos.y + 1/10 ∧
    (handleWheel d s).targetCameraPos.x = s.targetCameraPos.x ∧
    (handleWheel d s).targetCameraPos.z = s.targetCameraPos.z ∧
    (∀ deltas : List ℚ, (∀ x ∈ deltas, 0 < x) →
      (wheelRun deltas s).targetCameraPos.y =
        s.targetCameraPos.y + deltas.length / 10) ∧
    (∀ s' : RigState, s'.targetCameraPos = ⟨7, 3/4, 1⟩ →
      (handleWheel 1 (handleWheel 1 (handleWheel 1 s'))).targetCameraPos =
        ⟨7, 21/20, 1⟩) := by
  refine ⟨?_, ?_, ?_, fun deltas hpos => wheelRun_pos_y deltas hpos s,
    fun s' hs' => ?_⟩
  · simp [handleWheel, if_pos hd]
  · simp [handleWheel, if_pos hd]
  · simp [handleWheel, if_pos hd]
  · simp [handleWheel, hs']
    norm_num

theorem wheel_down_increments_target_y_witness :
    (0 : ℚ) < 1 ∧
    (handleWheel 1 s₀).targetCameraPos.y = s₀.targetCameraPos.y + 1/10 :=
  ⟨by norm_num, (wheel_down_increments_target_y s₀ 1 (by norm_num)).1⟩

/-- C3: a wheel event with negative `deltaY` resets `targetPos` to
`originalPosition = (7, 0.75, 1)` regardless of the prior target, and
leaves the camera's current position untouched. -/
theorem wheel_up_resets_target (s : RigState) (d : ℚ) (hd : d < 0) :
    (handleWheel d s).targetCameraPos = originalPosition ∧
    originalPosition = ⟨7, 3/4, 1⟩ ∧
    (handleWheel d s).position = s.position := by
  have hnp : ¬ d > 0 := by linarith
  exact ⟨by simp [handleWheel, if_neg hnp, if_pos hd], rfl,
    by simp [handleWheel, if_neg hnp, if_pos hd]⟩

theorem wheel_up_resets_target_witness :
    (-1 : ℚ) < 0 ∧ (handleWheel (-1) s₀).targetCameraPos = originalPosition :=
  ⟨by norm_num, (wheel_up_resets_target s₀ (-1) (by norm_num)).1⟩

/-- C4: the per-frame rotation is
`y = baseline.y − mouse.x·0.035`, `x = baseline.x − mouse.y·0.025`, a
pure function of the mouse and the immutable baseline; running the
frame twice with unchanged pointer state gives an identical rotation,
and with mouse `(0, 0)` (in a state whose roll agrees with the
baseline, as it does for every mounted state) the rotation equals the
baseline exactly. -/
theorem frame_rotation_pure (s : RigState)
    (hz : s.rotation.z = s.initialRotation.z) :
    (frame s).rotation.y = s.initialRotation.y - s.mouse.x * (7/200) ∧
    (frame s).rotation.x = s.initialRotation.x - s.mouse.y * (1/40) ∧
    (frame (frame s)).rotation = (frame s).rotation ∧
    (s.mouse = ⟨0, 0⟩ → (frame s).rotation = s.initialRotation) := by
  refine ⟨rfl, rfl, rfl, fun hm => ?_⟩
  simp [frame, hm, hz]

theorem frame_rotation_pure_witness :
    s₀.rotation.z = s₀.initialRotation.z ∧
    (frame (frame s₀)).rotation = (frame s₀).rotation :=
  ⟨rfl, (frame_rotation_pure s₀ rfl).2.2.1⟩

/-- C5: a pointer-move event replaces `mouse` with
`((clientX/width)·2 − 1, (clientY/height)·2 − 1)`; for
`clientX ∈ [0, width]` the new x lies in `[-1, 1]`, with `clientX = 0`
mapping to `-1` and `clientX = width` to `1`, and symmetrically in y. -/
theorem pointer_move_normalizes (s : RigState) (cX cY w h : ℚ)
    (hw : 0 < w) (hh : 0 < h) :
    (handlePointerMove cX cY w h s).mouse =
      ⟨cX / w * 2 - 1, cY / h * 2 - 1⟩ ∧
    (0 ≤ cX → cX ≤ w →
      -1 ≤ (handlePointerMove cX cY w h s).mouse.x ∧
      (handlePointerMove cX cY w h s).mouse.x ≤ 1) ∧
    (cX = 0 → (handlePointerMove cX cY w h s).mouse.x = -1) ∧
    (cX = w → (handlePointerMove cX cY w h s).mouse.x = 1) ∧
    (0 ≤ cY → cY ≤ h →
      -1 ≤ (handlePointerMove cX cY w h s).mouse.y ∧
      (handlePointerMove cX cY w h s).mouse.y ≤ 1) ∧
    (cY = 0 → (handlePointerMove cX cY w h s).mouse.y = -1) ∧
    (cY = h → (handlePointerMove cX cY w h s).mouse.y = 1) := by
  have hwx : ∀ c : ℚ, 0 ≤ c → c ≤ w → -1 ≤ c / w * 2 - 1 ∧ c / w * 2 - 1 ≤ 1 := by
    intro c hc0 hcw
    constructor
    · have : 0 ≤ c / w := div_nonneg hc0 hw.le
      nlinarith
    · have : c / w ≤ 1 := (div_le_one hw).mpr hcw
      nlinarith
  have hhy : ∀ c : ℚ, 0 ≤ c → c ≤ h → -1 ≤ c / h * 2 - 1 ∧ c / h * 2 - 1 ≤ 1 := by
    intro c hc0 hch
    constructor
    · have : 0 ≤ c / h := div_nonneg hc0 hh.le
      nlinarith
    · have : c / h ≤ 1 := (div_le_one hh).mpr hch
      nlinarith
  refine ⟨rfl, fun h0 h1 => hwx cX h0 h1, fun hc => ?_, fun hc => ?_,
    fun h0 h1 => hhy cY h0 h1, fun hc => ?_, fun hc => ?_⟩
  · simp [handlePointerMove, hc]
  · simp [handlePointerMove, hc]
    rw [div_self hw.ne']
    norm_num
  · simp [handlePointerMove, hc]
  · simp [handlePointerMove, hc]
    rw [div_self hh.ne']
    norm_num

theorem pointer_move_normalizes_witness :
    (0 : ℚ) < 100 ∧
    (handlePointerMove 25 50 100 100 s₀).mouse =
      ⟨(25 : ℚ) / 100 * 2 - 1, (50 : ℚ) / 100 * 2 - 1⟩ :=
  ⟨by norm_num,
    (pointer_move_normalizes s₀ 25 50 100 100 (by norm_num) (by norm_num)).1⟩

/-- C8: a wheel event with `deltaY = 0` falls through both branches and
changes nothing. -/
theorem wheel_zero_noop (s : RigState) : handleWheel 0 s = s := by
  simp [handleWheel]

/-- C9: event handlers never write the camera transform: a pointer-move
or wheel event leaves `camera.position` and `camera.rotation` exactly
as they were, staging only `mouse` and `targetCameraPos`. -/
theorem handlers_do_not_touch_camera (s : RigState)
    (cX cY w h d : ℚ) :
    (handlePointerMove cX cY w h s).position = s.position ∧
    (handlePointerMove cX cY w h s).rotation = s.rotation ∧
    (handleWheel d s).position = s.position ∧
    (handleWheel d s).rotation = s.rotation := by
  refine ⟨rfl, rfl, ?_, ?_⟩
  all_goals
    simp only [handleWheel]
    split
    · rfl
    · split <;> rfl

theorem distSq_nonneg (a b : Vec3) : 0 ≤ distSq a b := by
  unfold distSq
  positivity

theorem distSq_eq_zero_iff (a b : Vec3) : distSq a b = 0 ↔ a = b := by
  obtain ⟨a1, a2, a3⟩ := a
  obtain ⟨b1, b2, b3⟩ := b
  simp only [distSq, Vec3.mk.injEq]
  constructor
  · intro hsum
    refine ⟨?_, ?_, ?_⟩ <;>
      nlinarith [sq_nonneg (a1 - b1), sq_nonneg (a2 - b2), sq_nonneg (a3 - b3)]
  · rintro ⟨h1, h2, h3⟩
    subst h1
    subst h2
    subst h3
    ring

theorem distSq_lerp (v t : Vec3) :
    distSq (lerp v t (1/50)) t = (2401/2500) * distSq v t := by
  unfold distSq lerp
  ring

theorem distSq_lerpIter (cur t : Vec3) (n : ℕ) :
    distSq (lerpIter cur t n) t = (2401/2500) ^ n * distSq cur t := by
  induction n with
  | zero => simp [lerpIter]
  | succ n ih =>
    rw [lerpIter, distSq_lerp, ih, pow_succ]
    ring

/-- C1: with a fixed target and `currentPos ≠ targetPos`, each
per-frame `lerp(·, target, 0.02)` update strictly reduces the distance
to the target; the residual offset in every component is scaled by the
positive factor 49/50, so the motion never overshoots or changes
direction; the position never exactly equals the target; and the
squared distance falls below any positive bound after enough frames. -/
theorem lerp_monotonic_convergence (cur target : Vec3)
    (hne : cur ≠ target) :
    (∀ n : ℕ, distSq (lerpIter cur target (n + 1)) target
        < distSq (lerpIter cur target n) target) ∧
    (∀ n : ℕ,
      target.x - (lerpIter cur target (n + 1)).x
        = 49/50 * (target.x - (lerpIter cur target n).x) ∧
      target.y - (lerpIter cur target (n + 1)).y
        = 49/50 * (target.y - (lerpIter cur target n).y) ∧
      target.z - (lerpIter cur target (n + 1)).z
        = 49/50 * (target.z - (lerpIter cur target n).z)) ∧
    (∀ n : ℕ, lerpIter cur target n ≠ target) ∧
    (∀ ε : ℚ, 0 < ε → ∃ n : ℕ, distSq (lerpIter cur target n) target < ε) := by
  have hD0 : 0 < distSq cur target := by
    rcases lt_or_eq_of_le (distSq_nonneg cur target) with h | h
    · exact h
    · exact absurd ((distSq_eq_zero_iff cur target).mp h.symm) hne
  have hpos : ∀ n : ℕ, 0 < distSq (lerpIter cur target n) target := by
    intro n
    rw [distSq_lerpIter]
    have : (0 : ℚ) < (2401/2500) ^ n := by positivity
    positivity
  refine ⟨?_, ?_, ?_, ?_⟩
  · intro n
    have h := hpos n
    rw [lerpIter, distSq_lerp]
    nlinarith
  · intro n
    refine ⟨?_, ?_, ?_⟩ <;> (rw [lerpIter]; unfold lerp; ring)
  · intro n
    intro hEq
    have := hpos n
    rw [(distSq_eq_zero_iff _ _).mpr hEq] at this
    exact lt_irrefl 0 this
  · intro ε hε
    obtain ⟨n, hn⟩ :=
      exists_pow_lt_of_lt_one (x := ε / distSq cur target)
        (y := (2401/2500 : ℚ)) (div_pos hε hD0) (by norm_num)
    refine ⟨n, ?_⟩
    rw [distSq_lerpIter]
    calc (2401/2500 : ℚ) ^ n * distSq cur target
        < ε / distSq cur target * distSq cur target := by
          exact mul_lt_mul_of_pos_right hn hD0
      _ = ε := div_mul_cancel₀ ε hD0.ne'

theorem lerp_monotonic_convergence_witness :
    (⟨0, 0, 0⟩ : Vec3) ≠ ⟨1, 0, 0⟩ ∧
    distSq (lerpIter ⟨0, 0, 0⟩ ⟨1, 0, 0⟩ 1) ⟨1, 0, 0⟩
      < distSq (lerpIter ⟨0, 0, 0⟩ ⟨1, 0, 0⟩ 0) ⟨1, 0, 0⟩ :=
  ⟨by simp [Vec3.mk.injEq],
    (lerp_monotonic_convergence ⟨0, 0, 0⟩ ⟨1, 0, 0⟩
      (by simp [Vec3.mk.injEq])).1 0⟩

/-- The wheel handler only ever produces the origin or a target lifted
by whole multiples of 0.1 in y. -/
def TargetInv (s : RigState) : Prop :=
  ∃ k : ℕ, s.targetCameraPos = ⟨7, 3/4 + (k : ℚ)/10, 1⟩

theorem step_preserves_TargetInv (e : Event) (s : RigState)
    (h : TargetInv s) : TargetInv (step e s) := by
  obtain ⟨k, hk⟩ := h
  cases e with
  | pointerMove cX cY w hgt => exact ⟨k, hk⟩
  | wheel d =>
    simp only [step, handleWheel]
    split
    · refine ⟨k + 1, ?_⟩
      simp only [hk, Vec3.mk.injEq]
      push_cast
      refine ⟨trivial, by ring, trivial⟩
    · split
      · exact ⟨0, by norm_num [originalPosition]⟩
      · exact ⟨k, hk⟩
  | tick => exact ⟨k, hk⟩

theorem run_preserves_TargetInv (events : List Event) (s : RigState)
    (h : TargetInv s) : TargetInv (run events s) := by
  induction events generalizing s with
  | nil => exact h
  | cons e es ih => exact ih (step e s) (step_preserves_TargetInv e s h)

/-- C6: in every state reachable from the mounted configuration by any
sequence of pointer-move events, wheel events and frame updates, the
target position is the origin lifted by `0.1·k` in y for some `k ≥ 0`;
in particular its x and z components always equal the origin's. -/
theorem target_always_origin_plus_steps (r0 : Vec3)
    (events : List Event) :
    ∃ k : ℕ,
      (run events (initState originalPosition r0)).targetCameraPos
        = ⟨7, 3/4 + (k : ℚ)/10, 1⟩ ∧
      (run events (initState originalPosition r0)).targetCameraPos.x
        = originalPosition.x ∧
      (run events (initState originalPosition r0)).targetCameraPos.z
        = originalPosition.z := by
  obtain ⟨k, hk⟩ := run_preserves_TargetInv events
    (initState originalPosition r0) ⟨0, by norm_num [initState, originalPosition]⟩
  exact ⟨k, hk, by rw [hk]; rfl, by rw [hk]; rfl⟩

/-- Normalizing a coordinate inside `[0, w]` lands in `[-1, 1]`. -/
theorem norm_coord_bounds (c w : ℚ) (hw : 0 < w) (h0 : 0 ≤ c)
    (h1 : c ≤ w) : -1 ≤ c / w * 2 - 1 ∧ c / w * 2 - 1 ≤ 1 := by
  constructor
  · have : 0 ≤ c / w := div_nonneg h0 hw.le
    nlinarith
  · have : c / w ≤ 1 := (div_le_one hw).mpr h1
    nlinarith

/-- C7 as stated is false: the handler does not clamp, so a pointer
coordinate beyond the viewport produces a normalized value outside
`[-1, 1]`.  With `clientX = 300` and `width = 100` the new
`pointerNorm.x` is `5`. -/
theorem pointer_range_counterexample :
    ¬ (-1 ≤ (handlePointerMove 300 0 100 100 s₀).mouse.x ∧
       (handlePointerMove 300 0 100 100 s₀).mouse.x ≤ 1) := by
  norm_num [handlePointerMove]

/-- C7 amended: for pointer-move events whose coordinates lie inside
the viewport (`clientX ∈ [0, width]`, `clientY ∈ [0, height]`, both
dimensions positive), the recomputed `pointerNorm` has both axes in
`[-1, 1]`. -/
theorem pointer_range_amended (s : RigState) (cX cY w h : ℚ)
    (hw : 0 < w) (hh : 0 < h) (hX0 : 0 ≤ cX) (hXw : cX ≤ w)
    (hY0 : 0 ≤ cY) (hYh : cY ≤ h) :
    -1 ≤ (handlePointerMove cX cY w h s).mouse.x ∧
    (handlePointerMove cX cY w h s).mouse.x ≤ 1 ∧
    -1 ≤ (handlePointerMove cX cY w h s).mouse.y ∧
    (handlePointerMove cX cY w h s).mouse.y ≤ 1 := by
  obtain ⟨hx1, hx2⟩ := norm_coord_bounds cX w hw hX0 hXw
  obtain ⟨hy1, hy2⟩ := norm_coord_bounds cY h hh hY0 hYh
  exact ⟨hx1, hx2, hy1, hy2⟩

theorem pointer_range_amended_witness :
    ((0 : ℚ) < 100 ∧ (0 : ℚ) ≤ 25 ∧ (25 : ℚ) ≤ 100) ∧
    -1 ≤ (handlePointerMove 25 25 100 100 s₀).mouse.x ∧
    (handlePointerMove 25 25 100 100 s₀).mouse.x ≤ 1 :=
  ⟨⟨by norm_num, by norm_num, by norm_num⟩,
    (pointer_range_amended s₀ 25 25 100 100 (by norm_num) (by norm_num)
      (by norm_num) (by norm_num) (by norm_num) (by norm_num)).1,
    (pointer_range_amended s₀ 25 25 100 100 (by norm_num) (by norm_num)
      (by norm_num) (by norm_num) (by norm_num) (by norm_num)).2.1⟩

theorem step_rotation_z (e : Event) (s : RigState) :
    (step e s).rotation.z = s.rotation.z ∧
    (step e s).initialRotation = s.initialRotation := by
  cases e with
  | pointerMove cX cY w hgt => exact ⟨rfl, rfl⟩
  | wheel d =>
    simp only [step, handleWheel]
    split
    · exact ⟨rfl, rfl⟩
    · split
      · exact ⟨rfl, rfl⟩
      · exact ⟨rfl, rfl⟩
  | tick => exact ⟨rfl, rfl⟩

/-- C10: the per-frame update writes only pitch and yaw; across any
event sequence the camera's roll stays equal to the z component of the
baseline captured at mount, which itself is never mutated. -/
theorem roll_never_written (p0 r0 : Vec3) (events : List Event) :
    (run events (initState p0 r0)).rotation.z = r0.z ∧
    (run events (initState p0 r0)).initialRotation = r0 := by
  suffices h : ∀ (es : List Event) (s : RigState),
      (run es s).rotation.z = s.rotation.z ∧
      (run es s).initialRotation = s.initialRotation by
    obtain ⟨h1, h2⟩ := h events (initState p0 r0)
    exact ⟨h1, h2⟩
  intro es
  induction es with
  | nil => exact fun s => ⟨rfl, rfl⟩
  | cons e es ih =>
    intro s
    obtain ⟨h1, h2⟩ := ih (step e s)
    obtain ⟨h3, h4⟩ := step_rotation_z e s
    exact ⟨h1.trans h3, h2.trans h4⟩

end CameraRig
